import Mathlib

/-!
Shallow embedding of the SpeedScore polygenic-score calculator
(src/main.rs, src/common.rs, src/single_sample.rs, src/multi_sample.rs).

Text is modelled as `List Char` (the code's byte/str handling is over
ASCII record data); Rust `u8`/`u32` become `Nat` with explicit range
checks where the code's integer parsing enforces them; `f32`/`f64`
weights and scores are modelled as exact rationals `ℚ` (IEEE rounding is
not modelled; every concrete weight used below is exactly representable);
Rust `HashMap` is modelled as an association list with at-most-one-entry
insert semantics, matching the observable lookup/insert behaviour.
-/

/-- Splits a character list at every occurrence of `sep`, like Rust's
`str::split` / `slice::split`: always returns at least one (possibly
empty) piece, and a trailing separator yields a trailing empty piece. -/
def splitSep (sep : Char) : List Char → List (List Char)
  | [] => [[]]
  | c :: rest =>
    match splitSep sep rest with
    | [] => [[c]]
    | h :: t => if c = sep then [] :: h :: t else (c :: h) :: t

/-- Embeds `str::trim_start_matches("chr")` as used for chromosome
normalization: repeatedly removes a leading `"chr"` while one is there. -/
def stripChr : List Char → List Char
  | 'c' :: 'h' :: 'r' :: rest => stripChr rest
  | l => l

/-- Embeds `str::starts_with("chr")` (used for the chr-format flags). -/
def startsWithChr : List Char → Bool
  | 'c' :: 'h' :: 'r' :: _ => true
  | _ => false

/-- Modelled from the spec's words: "normalize the line's chromosome by
stripping a leading `"chr"` literal" read as removing one single leading
occurrence.  Kept only to compare against the code's `trim_start_matches`
normalization (`stripChr`). -/
def stripChrOnce (l : List Char) : List Char :=
  match l with
  | 'c' :: 'h' :: 'r' :: rest => rest
  | _ => l

/-- Numeric value of a list of decimal digit characters. -/
def digitsVal (l : List Char) : Nat :=
  l.foldl (fun a c => a * 10 + (c.toNat - 48)) 0

/-- Embeds Rust `str::parse::<u32>()`: optional leading `+`, at least one
ASCII digit, nothing else, and the value must fit in 32 bits. -/
def parseU32 (l : List Char) : Option Nat :=
  let l2 := match l with
    | '+' :: r => r
    | _ => l
  match l2 with
  | [] => none
  | _ =>
    if l2.all Char.isDigit then
      if digitsVal l2 < 4294967296 then some (digitsVal l2) else none
    else none

/-- Embeds Rust `str::parse::<u8>()` (used for chromosome numbers in
`main.rs`): optional leading `+`, digits only, value below 256. -/
def parseU8 (l : List Char) : Option Nat :=
  let l2 := match l with
    | '+' :: r => r
    | _ => l
  match l2 with
  | [] => none
  | _ =>
    if l2.all Char.isDigit then
      if digitsVal l2 < 256 then some (digitsVal l2) else none
    else none

/-- Unsigned finite-decimal parser: digits, optionally followed by `.`
and further digits, or `.digits`; a lone `.` is rejected. -/
def parseDecimalCore (l : List Char) : Option ℚ :=
  match l.span Char.isDigit with
  | (ip, []) => if ip = [] then none else some (digitsVal ip : ℚ)
  | (ip, '.' :: fp) =>
    if fp.all Char.isDigit ∧ (ip ≠ [] ∨ fp ≠ []) then
      some ((digitsVal ip : ℚ) + (digitsVal fp : ℚ) / (10 ^ fp.length : ℚ))
    else none
  | _ => none

/-- Embeds `str::parse::<f32>()` for weight values, restricted to finite
decimal literals with optional sign; the parsed value is kept as an exact
rational (no exponent forms, `inf`, or `nan`, and no IEEE rounding). -/
def parseDecimal (l : List Char) : Option ℚ :=
  match l with
  | '+' :: r => parseDecimalCore r
  | '-' :: r => (parseDecimalCore r).map (fun q => -q)
  | _ => parseDecimalCore l

/-- Lookup in the association-list model of `HashMap`. -/
def mapLookup {α β : Type} [DecidableEq α] (m : List (α × β)) (k : α) : Option β :=
  (m.find? (fun e => decide (e.1 = k))).map Prod.snd

/-- Insert in the association-list model of `HashMap::insert`: replaces
the value when the key is present, otherwise appends the new entry. -/
def mapInsert {α β : Type} [DecidableEq α] (k : α) (v : β) (m : List (α × β)) :
    List (α × β) :=
  if m.any (fun e => decide (e.1 = k)) then
    m.map (fun e => if e.1 = k then (k, v) else e)
  else m ++ [(k, v)]

/-- The keys of the map are pairwise distinct (the `HashMap` invariant). -/
def nodupKeys {α β : Type} (m : List (α × β)) : Prop :=
  (m.map Prod.fst).Nodup

instance {α β : Type} [DecidableEq α] (m : List (α × β)) :
    Decidable (nodupKeys m) := by
  unfold nodupKeys; infer_instance

/-- Folding a list of key-value pairs into a map by repeated insertion
(the loader's accumulation loop). -/
def insFold {α β : Type} [DecidableEq α] (m : List (α × β)) (es : List (α × β)) :
    List (α × β) :=
  es.foldl (fun acc e => mapInsert e.1 e.2 acc) m

/-- Embeds `struct SampleData` of `multi_sample.rs` (field order as in the
source: score, matched_variants, total_variants). -/
structure SampleData where
  score : ℚ
  matched_variants : Nat
  total_variants : Nat
deriving DecidableEq, Repr

/-- Embeds the `(f64, usize, usize)` aggregate `(score, total_variants,
matched_variants)` of `main.rs` / `single_sample.rs`. -/
structure Agg where
  score : ℚ
  total_variants : Nat
  matched_variants : Nat
deriving DecidableEq, Repr

/-- Element-wise sum used by the chunk reduction fold in `main.rs`
(`fold ((0.0, 0, 0), |acc, x| (acc.0 + x.0, acc.1 + x.1, acc.2 + x.2))`). -/
def mergeAgg (a b : Agg) : Agg :=
  ⟨a.score + b.score, a.total_variants + b.total_variants,
    a.matched_variants + b.matched_variants⟩

/-- Weight map type of `multi_sample.rs`:
`HashMap<(String, u32), (String, f32)>`. -/
abbrev WMap : Type := List ((List Char × Nat) × (List Char × ℚ))

/-- Weight map type of `single_sample.rs`'s `calculate_polygenic_score`:
`HashMap<(String, u32), f32>`. -/
abbrev SWMap : Type := List ((List Char × Nat) × ℚ)

/-- Weight map type of `main.rs`: `HashMap<(u8, u32), f32>`. -/
abbrev MMap : Type := List ((Nat × Nat) × ℚ)

/-- Embeds the GT extraction `genotype_field.split(':').next().unwrap_or(".")`
of `multi_sample.rs`: the text before the first `:`. -/
def gtOf (field : List Char) : List Char :=
  field.takeWhile (fun c => decide (c ≠ ':'))

/-- Worker loop of `parse_allele_count` in `multi_sample.rs`: scans the GT
characters, counting effect alleles in a `u8` counter (hence the mod-256
arithmetic) and aborting with `None` on a `.`, `2`, or `3` character. -/
def alleleGo (effect_is_alt : Bool) : List Char → Nat → Option Nat
  | [], acc => some acc
  | c :: rest, acc =>
    if (c = '0' ∧ effect_is_alt = false) ∨ (c = '1' ∧ effect_is_alt = true) then
      alleleGo effect_is_alt rest ((acc + 1) % 256)
    else if c = '.' ∨ c = '2' ∨ c = '3' then none
    else alleleGo effect_is_alt rest acc

/-- Embeds `fn parse_allele_count(gt: &str, effect_is_alt: bool) -> Option<u8>`
of `multi_sample.rs`. -/
def parse_allele_count (gt : List Char) (effect_is_alt : Bool) : Option Nat :=
  alleleGo effect_is_alt gt 0

/-- Per-sample update of the matched branch in `multi_sample.rs`'s
`process_chunk`: increments `total_variants` and `matched_variants`, then
adds `weight * allele_count` to the score when the genotype parses. -/
def applyGT (effect_is_alt : Bool) (weight : ℚ) (s : SampleData)
    (field : List Char) : SampleData :=
  let s1 : SampleData :=
    ⟨s.score, s.matched_variants + 1, s.total_variants + 1⟩
  match parse_allele_count (gtOf field) effect_is_alt with
  | some n => ⟨s1.score + weight * (n : ℚ), s1.matched_variants, s1.total_variants⟩
  | none => s1

/-- Embeds `sample_data.iter_mut().zip(genotype_fields)` of
`multi_sample.rs`: the first `min` samples are updated with their genotype
field; samples beyond the genotype columns are left unchanged. -/
def applyGenotypes (effect_is_alt : Bool) (weight : ℚ) :
    List SampleData → List (List Char) → List SampleData
  | sds, [] => sds
  | [], _ => []
  | s :: sds, g :: gts =>
    applyGT effect_is_alt weight s g :: applyGenotypes effect_is_alt weight sds gts

/-- Embeds one iteration of the per-line loop in `multi_sample.rs`'s
`process_chunk` (lines 164-242): comment/empty skip, tab split, the
minimum-10-fields check, position parse, chromosome normalization, weight
lookup, effect-allele orientation, and the per-sample genotype updates.
The debug return value `(last_chr, last_pos, vcf_chr_format)` and the
UTF-8 validity skip are progress-reporting concerns omitted here. -/
def process_line_multi (w : WMap) (sds : List SampleData) (line : List Char) :
    List SampleData :=
  match line with
  | [] => sds
  | c :: _ =>
    if c = '#' then sds
    else
      let parts := splitSep '\t' line
      if parts.length < 10 then sds
      else
        let chr_raw := parts.getD 0 []
        match parseU32 (parts.getD 1 []) with
        | none => sds
        | some pos =>
          let normalized_chr := stripChr chr_raw
          match mapLookup w (normalized_chr, pos) with
          | none =>
            sds.map (fun s => ⟨s.score, s.matched_variants, s.total_variants + 1⟩)
          | some (effect_allele, weight) =>
            let effect_is_ref : Bool := decide (effect_allele = parts.getD 3 [])
            let effect_is_alt : Bool := decide (effect_allele = parts.getD 4 [])
            if !effect_is_ref && !effect_is_alt then
              sds.map (fun s => ⟨s.score, s.matched_variants, s.total_variants + 1⟩)
            else
              applyGenotypes effect_is_alt weight sds (parts.drop 9)

/-- Embeds `fn process_chunk` of `multi_sample.rs`: splits the chunk on
newlines and runs the per-line update over the sample accumulators. -/
def process_chunk_multi (w : WMap) (chunk : List Char)
    (sds : List SampleData) : List SampleData :=
  (splitSep '\n' chunk).foldl (process_line_multi w) sds

/-- Embeds one iteration of the line loop in `single_sample.rs`'s
`calculate_polygenic_score` (lines 20-67): `#` lines are skipped before
counting; every other line increments `total_variants`; a matched line
takes its allele count from the first and third characters of field 9.
The `println!` debug output is omitted. -/
def score_line_single (w : SWMap) (acc : Agg) (line : List Char) : Agg :=
  match line with
  | '#' :: _ => acc
  | _ =>
    let acc1 : Agg := ⟨acc.score, acc.total_variants + 1, acc.matched_variants⟩
    let parts := splitSep '\t' line
    if parts.length < 10 then acc1
    else
      let chr := parts.getD 0 []
      match parseU32 (parts.getD 1 []) with
      | none => acc1
      | some pos =>
        match mapLookup w (chr, pos) with
        | none => acc1
        | some weight =>
          let genotype := parts.getD 9 []
          match
            (match genotype.get? 0 with
              | some '0' => some 0
              | some '1' => some (if genotype.get? 2 = some '1' then 2 else 1)
              | _ => (none : Option Nat)) with
          | some n =>
            ⟨acc1.score + weight * (n : ℚ), acc1.total_variants,
              acc1.matched_variants + 1⟩
          | none => acc1

/-- Embeds the whole line loop of `single_sample.rs`'s
`calculate_polygenic_score`, over an already-decoded list of lines. -/
def calculate_polygenic_score_single (w : SWMap) (lines : List (List Char)) : Agg :=
  lines.foldl (score_line_single w) ⟨0, 0, 0⟩

/-- Embeds one iteration of the line loop in `main.rs`'s `process_chunk`
(lines 93-116): empty/`#` skip, `total_variants` increment, tab split,
`u8` chromosome and `u32` position parse, weight lookup, and the
first/third-character allele count. -/
def process_line_main (w : MMap) (acc : Agg) (line : List Char) : Agg :=
  match line with
  | [] => acc
  | c :: _ =>
    if c = '#' then acc
    else
      let acc1 : Agg := ⟨acc.score, acc.total_variants + 1, acc.matched_variants⟩
      let parts := splitSep '\t' line
      match parts.get? 1, parts.get? 9 with
      | some poss, some gt =>
        match parseU8 (parts.getD 0 []), parseU32 poss with
        | some chr, some pos =>
          match mapLookup w (chr, pos) with
          | some weight =>
            match
              (match gt.get? 0 with
                | some '0' => some 0
                | some '1' => some (if gt.get? 2 = some '1' then 2 else 1)
                | _ => (none : Option Nat)) with
            | some n =>
              ⟨acc1.score + weight * (n : ℚ), acc1.total_variants,
                acc1.matched_variants + 1⟩
            | none => acc1
          | none => acc1
        | _, _ => acc1
      | _, _ => acc1

/-- Embeds `fn process_chunk` of `main.rs`: splits a raw byte range on
newlines and folds the per-line update from a zeroed aggregate. -/
def process_chunk_main (w : MMap) (chunk : List Char) : Agg :=
  (splitSep '\n' chunk).foldl (process_line_main w) ⟨0, 0, 0⟩

/-- Embeds `fn calculate_polygenic_score` of `main.rs` with the chunk size
as a parameter (the source fixes it at `1024 * 1024 * 10`): the input byte
extent is sliced into `(len + chunk_size - 1) / chunk_size` raw ranges
with no newline alignment, each range is processed independently, and the
partial aggregates are folded element-wise from zero. -/
def calculate_polygenic_score_main (w : MMap) (chunk_size : Nat)
    (bytes : List Char) : Agg :=
  let num_chunks := (bytes.length + chunk_size - 1) / chunk_size
  (List.range num_chunks).foldl
    (fun a i => mergeAgg a (process_chunk_main w ((bytes.drop (i * chunk_size)).take chunk_size)))
    ⟨0, 0, 0⟩

/-- Embeds `headers.iter().position(|h| h == name)` of `common.rs`. -/
def findCol (hs : List (List Char)) (name : List Char) : Option Nat :=
  hs.findIdx? (fun h => decide (h = name))

/-- Embeds the per-data-row body of `load_scoring_file` in `common.rs`
(lines 88-131): column-count check against the header, required column
lookups, position and weight parsing, and chromosome normalization.
Returns the map key, the stored `(effect_allele, weight)` value, and the
raw chromosome text (used for the chr-format flag). -/
def parseRow (hs : List (List Char)) (line : List Char) :
    Except String ((List Char × Nat) × (List Char × ℚ) × List Char) :=
  let parts := splitSep '\t' line
  if parts.length ≠ hs.length then
    .error "Mismatch between header and data columns"
  else
    match findCol hs ("chr_name".data) with
    | none => .error "Missing chr_name column"
    | some chr_index =>
      match findCol hs ("chr_position".data) with
      | none => .error "Missing chr_position column"
      | some pos_index =>
        match findCol hs ("effect_allele".data) with
        | none => .error "Missing effect_allele column"
        | some allele_index =>
          match findCol hs ("effect_weight".data) with
          | none => .error "Missing effect_weight column"
          | some weight_index =>
            let chr := parts.getD chr_index []
            match parseU32 (parts.getD pos_index []) with
            | none => .error "Invalid numeric position"
            | some pos =>
              let allele := parts.getD allele_index []
              match parseDecimal (parts.getD weight_index []) with
              | none => .error "Invalid numeric weight"
              | some weight =>
                .ok ((stripChr chr, pos), (allele, weight), chr)

/-- Embeds `line.starts_with('#')`, the comment test of the loaders. -/
def isCommentLine (l : List Char) : Bool :=
  match l with
  | '#' :: _ => true
  | _ => false

/-- Embeds the line loop of `load_scoring_file` in `common.rs` (lines
75-140): `#` lines are skipped, the first non-comment line becomes the
header row, every later line is parsed against it and inserted into the
accumulating map, and the chr-format flag is taken from the first data
row. -/
def load_aux (hdrs : Option (List (List Char))) (m : WMap) (count : Nat)
    (flag : Bool) : List (List Char) → Except String (WMap × Bool)
  | [] => .ok (m, flag)
  | line :: rest =>
    if isCommentLine line then load_aux hdrs m count flag rest
    else
      match hdrs with
      | none => load_aux (some (splitSep '\t' line)) m count flag rest
      | some hs =>
        match parseRow hs line with
        | .error e => .error e
        | .ok (key, val, chr) =>
          load_aux (some hs) (mapInsert key val m) (count + 1)
            (if count = 0 then startsWithChr chr else flag) rest

/-- Embeds `pub fn load_scoring_file` of `common.rs` over an
already-decoded list of lines. -/
def load_scoring_file (lines : List (List Char)) : Except String (WMap × Bool) :=
  load_aux none [] 0 false lines

/-- The key-value pairs that `load_scoring_file` inserts, in file order
(comments skipped, first non-comment line the header row, truncated at
the first row that fails to parse, where loading errors out). -/
def entriesOf (hdrs : Option (List (List Char))) :
    List (List Char) → List ((List Char × Nat) × (List Char × ℚ))
  | [] => []
  | line :: rest =>
    if isCommentLine line then entriesOf hdrs rest
    else
      match hdrs with
      | none => entriesOf (some (splitSep '\t' line)) rest
      | some hs =>
        match parseRow hs line with
        | .error _ => []
        | .ok (key, val, _) => (key, val) :: entriesOf (some hs) rest

/-- The entries of a whole scoring file, from its raw lines. -/
def scoringEntries (lines : List (List Char)) :
    List ((List Char × Nat) × (List Char × ℚ)) :=
  entriesOf none lines

/-- Embeds `pub enum FileType` of `common.rs`. -/
inductive FileTypeKind where
  | SingleSample : FileTypeKind
  | MultiSample : FileTypeKind
deriving DecidableEq, Repr

/-- Embeds the sample-count computation of `FileType::detect`
(`buffer.split('\t').count() - 9`, with Rust `usize` underflow on a short
header line not modelled: `Nat` subtraction truncates at 0 where Rust
would panic in debug builds). -/
def detectSampleCount (l : List Char) : Nat :=
  (splitSep '\t' l).length - 9

/-- Embeds the `while reader.read_line(..)? > 0` scan of
`FileType::detect` in `common.rs` (lines 52-61): terminates with the
"VCF header not found" error when the stream ends before a `#CHROM`
line. -/
def detectLoop : List (List Char) → Except String FileTypeKind
  | [] => .error "VCF header not found"
  | line :: rest =>
    if ("#CHROM".data).isPrefixOf line then
      .ok (if detectSampleCount line > 1 then .MultiSample else .SingleSample)
    else detectLoop rest

/-- Embeds `FileType::detect` of `common.rs` over the decoded lines of
the file: the first line must carry the `##fileformat=VCF` magic, then
the remaining lines are scanned for the `#CHROM` header. -/
def file_type_detect (lines : List (List Char)) : Except String FileTypeKind :=
  if ("##fileformat=VCF".data).isPrefixOf (lines.headD []) then
    detectLoop lines.tail
  else .error "Not a VCF file"

/-- Embeds `str::split_whitespace`: maximal runs of non-whitespace
characters, with no empty pieces. -/
def splitWS : List Char → List (List Char)
  | [] => []
  | c :: rest =>
    if c.isWhitespace then splitWS rest
    else
      (c :: rest.takeWhile (fun d => !d.isWhitespace)) ::
        splitWS (rest.dropWhile (fun d => !d.isWhitespace))
termination_by l => l.length
decreasing_by
  · simp
  · exact Nat.lt_succ_of_le (List.dropWhile_suffix _).length_le

/-- Embeds `header_line.split_whitespace().skip(9)`: the sample names of
a `#CHROM` header line. -/
def sampleNamesOf (l : List Char) : List (List Char) :=
  (splitWS l).drop 9

/-- Fuel-indexed semantics of the header-search loop in
`calculate_polygenic_score_multi` (`multi_sample.rs` lines 68-75).  The
stream is the list of remaining lines; once it is exhausted, `read_line`
keeps returning 0 bytes, so the loop re-tests the empty line forever:
each fuel step at `[]` recurses on `[]` again.  A `some` result is the
sample-name list extracted on success; `none` means the loop did not
finish within the given fuel. -/
def headerLoopFuel : Nat → List (List Char) → Option (List (List Char))
  | 0, _ => none
  | n + 1, [] => headerLoopFuel n []
  | n + 1, line :: rest =>
    if ("#CHROM".data).isPrefixOf line then some (sampleNamesOf line)
    else headerLoopFuel n rest

/-- Weight table of the spec's concrete scenario: `{("1", 1000): ("A", 0.5)}`
(`mkRat 1 2` is the exact value of the `f32` literal `0.5`). -/
def exampleWeights : WMap := [(("1".data, 1000), ("A".data, mkRat 1 2))]

/-- A zeroed per-sample accumulator (`SampleData::default()`). -/
def sampleZero : SampleData := ⟨0, 0, 0⟩

/-- The spec's concrete variant line. -/
def exampleLine : List Char := "1\t1000\t.\tA\tG\t.\t.\t.\tGT\t0/1".data

/-- The concrete variant line with chromosome `chr1` instead of `1`. -/
def exampleLineChr : List Char := "chr1\t1000\t.\tA\tG\t.\t.\t.\tGT\t0/1".data

/-- A variant line whose chromosome field stacks two `chr` prefixes. -/
def exampleLineChrChr : List Char :=
  "chrchr1\t1000\t.\tA\tG\t.\t.\t.\tGT\t0/1".data

/-- The concrete variant line with the missing-data genotype `./1`. -/
def exampleLineMissing : List Char :=
  "1\t1000\t.\tA\tG\t.\t.\t.\tGT\t./1".data

/-- A non-comment data line with only 3 tab-separated fields. -/
def shortLine : List Char := "1\t1000\tX".data

/-- The `main.rs`-typed weight table for the same scenario. -/
def mainWeights : MMap := [((1, 1000), mkRat 1 2)]

/-- The `single_sample.rs`-typed weight table for the same scenario. -/
def singleWeights : SWMap := [(("1".data, 1000), mkRat 1 2)]

/-- Scoring-file lines with a header row and two data rows sharing the
normalized key `("1", 1000)`. -/
def exampleScoringLines : List (List Char) :=
  [("chr_name\tchr_position\teffect_allele\teffect_weight".data),
    ("chr1\t1000\tA\t0.5".data),
    ("1\t1000\tG\t0.25".data)]

/-- A stream whose lines never start with `#CHROM`. -/
def noHeaderStream : List (List Char) := [("##fileformat=VCFv4.2".data)]

attribute [local semireducible] Rat.add Rat.mul Rat.inv

/-- Helper: once the stream is exhausted the header loop makes no further
progress, whatever fuel remains. -/
theorem headerLoopFuel_nil : ∀ n : Nat, headerLoopFuel n [] = none := by
  intro n
  induction n with
  | zero => rfl
  | succ n ih => rw [headerLoopFuel]; exact ih

/-- C1: for the weight table `{("1", 1000): ("A", 0.5)}` and the variant
line `1\t1000\t.\tA\tG\t.\t.\t.\tGT\t0/1`, the multi-sample scorer finds
the table entry under the normalized key, the effect allele `A` equals the
REF field (field 3) and not the ALT field (field 4) — orientation
`RefIsEffect` — the genotype `0/1` decodes to allele count 1 under that
orientation, and the resulting accumulator carries score contribution
`0.5` and `matched_variants = 1`. -/
theorem effect_ref_concrete_scenario :
    mapLookup exampleWeights (stripChr ("1".data), 1000) =
      some ("A".data, mkRat 1 2) ∧
    (splitSep '\t' exampleLine).getD 3 [] = "A".data ∧
    (splitSep '\t' exampleLine).getD 4 [] ≠ "A".data ∧
    parse_allele_count (gtOf ("0/1".data)) false = some 1 ∧
    process_chunk_multi exampleWeights exampleLine [sampleZero] =
      [⟨mkRat 1 2, 1, 1⟩] := by
  decide

/-- C2, counterexample: the code's normalization is `trim_start_matches`,
which strips every leading `chr` repetition, not a single leading `chr`
literal: on chromosome `chrchr1` the two differ, and the scorer matches
the table entry keyed `("1", 1000)` even though the singly-stripped key
`("chr1", 1000)` is absent from the table. -/
theorem strip_once_counterexample :
    stripChr ("chrchr1".data) ≠ stripChrOnce ("chrchr1".data) ∧
    mapLookup exampleWeights (stripChrOnce ("chrchr1".data), 1000) = none ∧
    process_chunk_multi exampleWeights exampleLineChrChr [sampleZero] =
      [⟨mkRat 1 2, 1, 1⟩] := by
  decide

/-- C2, amended: the lookup key is built by stripping all leading
repetitions of the `chr` literal (case-sensitively) from the line's
chromosome field; in particular a line with chromosome `chr1` matches a
table entry keyed `"1"` and scores identically to the same line with
chromosome `1`. -/
theorem strip_all_leading_chr :
    (∀ s : List Char, stripChr ('c' :: 'h' :: 'r' :: s) = stripChr s) ∧
    process_chunk_multi exampleWeights exampleLineChr [sampleZero] =
      process_chunk_multi exampleWeights exampleLine [sampleZero] ∧
    process_chunk_multi exampleWeights exampleLine [sampleZero] =
      [⟨mkRat 1 2, 1, 1⟩] := by
  refine ⟨fun s => ?_, by decide, by decide⟩
  rw [stripChr]

/-- C3: `main.rs` slices the byte extent at fixed chunk-size boundaries
with no newline alignment, so a logical line straddling a boundary is
processed as two fragments.  On the 25-byte file holding the concrete
scenario line, a chunk size of 25 (one chunk) yields
`(total, matched) = (1, 1)` while a chunk size of 13 (two chunks) yields
`(2, 0)`: the chunked reduction does not preserve the counts. -/
theorem chunk_boundary_divergence :
    calculate_polygenic_score_main mainWeights 25 exampleLine = ⟨0, 1, 1⟩ ∧
    calculate_polygenic_score_main mainWeights 13 exampleLine = ⟨0, 2, 0⟩ ∧
    ((⟨0, 1, 1⟩ : Agg) ≠ ⟨0, 2, 0⟩) := by
  decide

/-- C4, counterexample: on a matched line whose genotype is `./1` the
multi-sample scorer produces score 0 and `total_variants = 1` as the
claim says, but `matched_variants` ends at 1, not 0: the code increments
`matched_variants` before inspecting the genotype. -/
theorem missing_genotype_counts_matched :
    process_chunk_multi exampleWeights exampleLineMissing [sampleZero] =
      [⟨0, 1, 1⟩] ∧
    ([⟨0, 1, 1⟩] : List SampleData) ≠ [⟨0, 0, 1⟩] := by
  decide

/-- C5: on a non-comment data line with fewer than 10 tab-separated
fields the multi-sample `process_chunk` leaves every accumulator
untouched — `total_variants` is *not* incremented — while the
single-sample scorer does count the line as seen but unmatched. -/
theorem short_line_not_counted_multi :
    process_line_multi exampleWeights [sampleZero] shortLine = [sampleZero] ∧
    calculate_polygenic_score_single singleWeights [shortLine] = ⟨0, 1, 0⟩ := by
  decide

/-- C6: with the effect allele equal to the line's ALT
(`effect_is_alt = true`), `parse_allele_count` maps `1/1` to 2, `0/0` to
0, and `0/1`/`1/0` to 1, and the `|` phasing separator gives the same
counts as `/`. -/
theorem orientation_symmetry_alt_counts :
    parse_allele_count ("1/1".data) true = some 2 ∧
    parse_allele_count ("0/0".data) true = some 0 ∧
    parse_allele_count ("0/1".data) true = some 1 ∧
    parse_allele_count ("1/0".data) true = some 1 ∧
    parse_allele_count ("1|1".data) true = some 2 ∧
    parse_allele_count ("0|0".data) true = some 0 ∧
    parse_allele_count ("0|1".data) true = some 1 ∧
    parse_allele_count ("1|0".data) true = some 1 := by
  decide

/-- C7: on a stream that ends before any `#CHROM` line, the header loop
of `calculate_polygenic_score_multi` never returns — `read_line` keeps
yielding 0 bytes at end-of-stream, the empty line fails the `#CHROM`
test, and the loop repeats, so no amount of fuel produces a result —
whereas `FileType::detect`'s scan of the same stream does terminate with
the "VCF header not found" error the spec describes. -/
theorem header_loop_no_result :
    (∀ fuel : Nat, headerLoopFuel fuel noHeaderStream = none) ∧
    file_type_detect noHeaderStream = .error "VCF header not found" := by
  constructor
  · intro fuel
    cases fuel with
    | zero => rfl
    | succ n =>
      have h : (("#CHROM".data).isPrefixOf ("##fileformat=VCFv4.2".data)) = false := by
        decide
      simp [noHeaderStream, headerLoopFuel, h, headerLoopFuel_nil]
  · rfl

/-- C9: the chromosome normalization used to build lookup keys is
idempotent: stripping `chr` prefixes from an already-stripped string
changes nothing. -/
theorem normalization_idempotent (l : List Char) :
    stripChr (stripChr l) = stripChr l := by
  induction l using stripChr.induct with
  | case1 rest ih => rw [stripChr]; exact ih
  | case2 l h => rw [stripChr.eq_2 l h, stripChr.eq_2 l h]

/-- Helper: the genotype scanner aborts with `None` as soon as the GT text
contains a `.`, `2`, or `3` character, whatever the running count. -/
theorem alleleGo_none_of_bad (effect_is_alt : Bool) :
    ∀ (gt : List Char) (acc : Nat),
      ('.' ∈ gt ∨ '2' ∈ gt ∨ '3' ∈ gt) →
      alleleGo effect_is_alt gt acc = none := by
  intro gt
  induction gt with
  | nil => intro acc h; simp at h
  | cons c rest ih =>
    intro acc h
    by_cases hc : c = '.' ∨ c = '2' ∨ c = '3'
    · have h1 : ¬ ((c = '0' ∧ effect_is_alt = false) ∨
          (c = '1' ∧ effect_is_alt = true)) := by
        rcases hc with h2 | h2 | h2 <;> subst h2 <;> simp
      rw [alleleGo, if_neg h1, if_pos hc]
    · have hrest : '.' ∈ rest ∨ '2' ∈ rest ∨ '3' ∈ rest := by
        rcases h with h2 | h2 | h2
        · rcases List.mem_cons.mp h2 with h3 | h3
          · exact absurd (Or.inl h3.symm) hc
          · exact Or.inl h3
        · rcases List.mem_cons.mp h2 with h3 | h3
          · exact absurd (Or.inr (Or.inl h3.symm)) hc
          · exact Or.inr (Or.inl h3)
        · rcases List.mem_cons.mp h2 with h3 | h3
          · exact absurd (Or.inr (Or.inr h3.symm)) hc
          · exact Or.inr (Or.inr h3)
      by_cases h1 : (c = '0' ∧ effect_is_alt = false) ∨
          (c = '1' ∧ effect_is_alt = true)
      · rw [alleleGo, if_pos h1]; exact ih _ hrest
      · rw [alleleGo, if_neg h1, if_neg hc]; exact ih _ hrest

/-- C4, amended: on a matched variant line, a sample whose genotype field
carries a `.`, `2`, or `3` token in its GT part contributes nothing to
that sample's score, and increments both `total_variants` and
`matched_variants` (the code counts the sample as matched before
inspecting the genotype). -/
theorem missing_genotype_no_contribution (effect_is_alt : Bool) (weight : ℚ)
    (s : SampleData) (field : List Char)
    (h : '.' ∈ gtOf field ∨ '2' ∈ gtOf field ∨ '3' ∈ gtOf field) :
    applyGT effect_is_alt weight s field =
      ⟨s.score, s.matched_variants + 1, s.total_variants + 1⟩ := by
  unfold applyGT parse_allele_count
  rw [alleleGo_none_of_bad effect_is_alt (gtOf field) 0 h]

/-- Witness for the amended C4 theorem at the concrete genotype `./1`. -/
theorem missing_genotype_no_contribution_witness :
    applyGT false (mkRat 1 2) sampleZero ("./1".data) = ⟨0, 1, 1⟩ := by
  exact missing_genotype_no_contribution false (mkRat 1 2) sampleZero
    ("./1".data) (by decide)

/-- Helper: the per-sample matched-branch update keeps
`matched_variants ≤ total_variants` (it increments both together). -/
theorem applyGT_inv (effect_is_alt : Bool) (weight : ℚ) (s : SampleData)
    (field : List Char) (h : s.matched_variants ≤ s.total_variants) :
    (applyGT effect_is_alt weight s field).matched_variants ≤
      (applyGT effect_is_alt weight s field).total_variants := by
  unfold applyGT
  cases parse_allele_count (gtOf field) effect_is_alt with
  | none => simpa using h
  | some n => simpa using h

/-- Helper: the zip of samples with genotype fields preserves the
`matched ≤ total` invariant over every sample. -/
theorem applyGenotypes_inv (effect_is_alt : Bool) (weight : ℚ) :
    ∀ (sds : List SampleData) (gts : List (List Char)),
      (∀ s ∈ sds, s.matched_variants ≤ s.total_variants) →
      ∀ x ∈ applyGenotypes effect_is_alt weight sds gts,
        x.matched_variants ≤ x.total_variants := by
  intro sds
  induction sds with
  | nil =>
    intro gts h x hx
    cases gts with
    | nil => simp [applyGenotypes] at hx
    | cons g gs => simp [applyGenotypes] at hx
  | cons s rest ih =>
    intro gts h x hx
    cases gts with
    | nil => exact h x hx
    | cons g gs =>
      simp only [applyGenotypes, List.mem_cons] at hx
      rcases hx with hx | hx
      · subst hx
        exact applyGT_inv _ _ _ _ (h s (List.mem_cons_self s rest))
      · exact ih gs (fun t ht => h t (List.mem_cons_of_mem s ht)) x hx

/-- Helper: one line of the multi-sample scorer preserves the
`matched ≤ total` invariant over every sample accumulator. -/
theorem process_line_multi_inv (w : WMap) (sds : List SampleData)
    (line : List Char)
    (h : ∀ s ∈ sds, s.matched_variants ≤ s.total_variants) :
    ∀ x ∈ process_line_multi w sds line,
      x.matched_variants ≤ x.total_variants := by
  have hmap : ∀ x ∈ sds.map (fun s =>
      (⟨s.score, s.matched_variants, s.total_variants + 1⟩ : SampleData)),
      x.matched_variants ≤ x.total_variants := by
    intro x hx
    obtain ⟨s, hs, rfl⟩ := List.mem_map.mp hx
    exact Nat.le_succ_of_le (h s hs)
  unfold process_line_multi
  simp only
  split
  · exact h
  · split
    · exact h
    · split
      · exact h
      · split
        · exact h
        · split
          · exact hmap
          · split
            · exact hmap
            · exact applyGenotypes_inv _ _ sds _ h

/-- Helper: folding the multi-sample per-line update over any line list
preserves the invariant. -/
theorem foldl_process_line_multi_inv (w : WMap) :
    ∀ (lines : List (List Char)) (sds : List SampleData),
      (∀ s ∈ sds, s.matched_variants ≤ s.total_variants) →
      ∀ x ∈ lines.foldl (process_line_multi w) sds,
        x.matched_variants ≤ x.total_variants := by
  intro lines
  induction lines with
  | nil => intro sds h; exact h
  | cons line rest ih =>
    intro sds h
    exact ih _ (process_line_multi_inv w sds line h)

/-- Helper: one line of the single-sample scorer preserves
`matched ≤ total` (the matched increment always comes with a total
increment). -/
theorem score_line_single_inv (w : SWMap) (acc : Agg) (line : List Char)
    (h : acc.matched_variants ≤ acc.total_variants) :
    (score_line_single w acc line).matched_variants ≤
      (score_line_single w acc line).total_variants := by
  unfold score_line_single
  simp only
  split
  · exact h
  · split
    · simpa using Nat.le_succ_of_le h
    · split
      · simpa using Nat.le_succ_of_le h
      · split
        · simpa using Nat.le_succ_of_le h
        · split
          · simpa using Nat.add_le_add h (Nat.le_refl 1)
          · simpa using Nat.le_succ_of_le h

/-- Helper: the single-sample line fold preserves `matched ≤ total`. -/
theorem foldl_score_line_single_inv (w : SWMap) :
    ∀ (lines : List (List Char)) (acc : Agg),
      acc.matched_variants ≤ acc.total_variants →
      (lines.foldl (score_line_single w) acc).matched_variants ≤
        (lines.foldl (score_line_single w) acc).total_variants := by
  intro lines
  induction lines with
  | nil => intro acc h; exact h
  | cons line rest ih =>
    intro acc h
    exact ih _ (score_line_single_inv w acc line h)

/-- Helper: one line of the `main.rs` scorer preserves `matched ≤ total`. -/
theorem process_line_main_inv (w : MMap) (acc : Agg) (line : List Char)
    (h : acc.matched_variants ≤ acc.total_variants) :
    (process_line_main w acc line).matched_variants ≤
      (process_line_main w acc line).total_variants := by
  unfold process_line_main
  simp only
  split
  · exact h
  · split
    · exact h
    · split
      · split
        · split
          · split
            · simpa using Nat.add_le_add h (Nat.le_refl 1)
            · simpa using Nat.le_succ_of_le h
          · simpa using Nat.le_succ_of_le h
        · simpa using Nat.le_succ_of_le h
      · simpa using Nat.le_succ_of_le h

/-- Helper: the `main.rs` per-chunk fold preserves `matched ≤ total`. -/
theorem foldl_process_line_main_inv (w : MMap) :
    ∀ (lines : List (List Char)) (acc : Agg),
      acc.matched_variants ≤ acc.total_variants →
      (lines.foldl (process_line_main w) acc).matched_variants ≤
        (lines.foldl (process_line_main w) acc).total_variants := by
  intro lines
  induction lines with
  | nil => intro acc h; exact h
  | cons line rest ih =>
    intro acc h
    exact ih _ (process_line_main_inv w acc line h)

/-- Helper: every chunk partial of `main.rs` satisfies `matched ≤ total`. -/
theorem process_chunk_main_inv (w : MMap) (chunk : List Char) :
    (process_chunk_main w chunk).matched_variants ≤
      (process_chunk_main w chunk).total_variants :=
  foldl_process_line_main_inv w _ _ (Nat.le_refl 0)

/-- Helper: the element-wise merge of aggregates preserves
`matched ≤ total`. -/
theorem mergeAgg_inv (a b : Agg)
    (ha : a.matched_variants ≤ a.total_variants)
    (hb : b.matched_variants ≤ b.total_variants) :
    (mergeAgg a b).matched_variants ≤ (mergeAgg a b).total_variants :=
  Nat.add_le_add ha hb

/-- Helper: the reduction fold of `main.rs` keeps `matched ≤ total` when
every partial satisfies it. -/
theorem foldl_mergeAgg_inv :
    ∀ (ps : List Agg) (init : Agg),
      init.matched_variants ≤ init.total_variants →
      (∀ p ∈ ps, p.matched_variants ≤ p.total_variants) →
      (ps.foldl mergeAgg init).matched_variants ≤
        (ps.foldl mergeAgg init).total_variants := by
  intro ps
  induction ps with
  | nil => intro init h _; exact h
  | cons p rest ih =>
    intro init h hall
    exact ih _ (mergeAgg_inv init p h (hall p (List.mem_cons_self p rest)))
      (fun q hq => hall q (List.mem_cons_of_mem p hq))

/-- C10: every accumulator satisfies `matched_variants ≤ total_variants`
throughout: the zeroed initial accumulator satisfies it; the multi-sample
chunk processor preserves it over every per-sample accumulator; the
single-sample scorer's final aggregate satisfies it; the element-wise
merge fold of chunk partials preserves it; and the chunked `main.rs`
computation's final aggregate satisfies it. -/
theorem accumulator_invariant :
    sampleZero.matched_variants ≤ sampleZero.total_variants ∧
    (∀ (w : WMap) (chunk : List Char) (sds : List SampleData),
      (∀ s ∈ sds, s.matched_variants ≤ s.total_variants) →
      ∀ x ∈ process_chunk_multi w chunk sds,
        x.matched_variants ≤ x.total_variants) ∧
    (∀ (w : SWMap) (lines : List (List Char)),
      (calculate_polygenic_score_single w lines).matched_variants ≤
        (calculate_polygenic_score_single w lines).total_variants) ∧
    (∀ (ps : List Agg),
      (∀ p ∈ ps, p.matched_variants ≤ p.total_variants) →
      (ps.foldl mergeAgg ⟨0, 0, 0⟩).matched_variants ≤
        (ps.foldl mergeAgg ⟨0, 0, 0⟩).total_variants) ∧
    (∀ (w : MMap) (chunk_size : Nat) (bytes : List Char),
      (calculate_polygenic_score_main w chunk_size bytes).matched_variants ≤
        (calculate_polygenic_score_main w chunk_size bytes).total_variants) := by
  refine ⟨Nat.le_refl 0, ?_, ?_, ?_, ?_⟩
  · intro w chunk sds h
    exact foldl_process_line_multi_inv w _ sds h
  · intro w lines
    exact foldl_score_line_single_inv w lines ⟨0, 0, 0⟩ (Nat.le_refl 0)
  · intro ps h
    exact foldl_mergeAgg_inv ps ⟨0, 0, 0⟩ (Nat.le_refl 0) h
  · intro w chunk_size bytes
    unfold calculate_polygenic_score_main
    simp only
    generalize (List.range ((bytes.length + chunk_size - 1) / chunk_size)) = idxs
    induction idxs using List.reverseRecOn with
    | nil => exact Nat.le_refl 0
    | append_singleton front i ih =>
      rw [List.foldl_append]
      exact mergeAgg_inv _ _ ih (process_chunk_main_inv w _)

/-- Witness for the accumulator invariant: applied to the concrete
scenario chunk and a concrete partial list. -/
theorem accumulator_invariant_witness :
    (⟨mkRat 1 2, 1, 1⟩ : SampleData).matched_variants ≤
      (⟨mkRat 1 2, 1, 1⟩ : SampleData).total_variants ∧
    (([⟨0, 2, 1⟩, ⟨mkRat 1 2, 3, 2⟩] : List Agg).foldl
        mergeAgg ⟨0, 0, 0⟩).matched_variants ≤
      (([⟨0, 2, 1⟩, ⟨mkRat 1 2, 3, 2⟩] : List Agg).foldl
        mergeAgg ⟨0, 0, 0⟩).total_variants :=
  ⟨accumulator_invariant.2.1 exampleWeights exampleLine [sampleZero]
      (by decide) _ (by decide),
    accumulator_invariant.2.2.2.1 [⟨0, 2, 1⟩, ⟨mkRat 1 2, 3, 2⟩] (by decide)⟩

/-- Helper: replacing the value stored at key `k` makes `find?` for `k` return the new entry exactly when the key was present. -/
theorem find?_replaceVal_self {α β : Type} [DecidableEq α] (k : α) (v : β) :
    ∀ m : List (α × β),
      List.find? (fun e => decide (e.1 = k))
          (m.map (fun e => if e.1 = k then (k, v) else e)) =
        if m.any (fun e => decide (e.1 = k)) then some (k, v) else none := by
  intro m
  induction m with
  | nil => simp
  | cons e t ih =>
    rw [List.map_cons]
    by_cases he : e.1 = k
    · rw [if_pos he, List.find?_cons_of_pos _ (by simp), List.any_cons]
      simp [he]
    · rw [if_neg he, List.find?_cons_of_neg _ (by simpa using he), ih,
        List.any_cons, decide_eq_false he, Bool.false_or]

theorem find?_replaceVal_ne {α β : Type} [DecidableEq α] (k k' : α) (v : β)
    (hk : ¬ k = k') :
    ∀ m : List (α × β),
      List.find? (fun e => decide (e.1 = k'))
          (m.map (fun e => if e.1 = k then (k, v) else e)) =
        List.find? (fun e => decide (e.1 = k')) m := by
  intro m
  induction m with
  | nil => simp
  | cons e t ih =>
    rw [List.map_cons]
    by_cases he : e.1 = k
    · have he2 : ¬ e.1 = k' := by rw [he]; exact hk
      rw [if_pos he, List.find?_cons_of_neg _ (by simpa using hk),
        List.find?_cons_of_neg _ (by simpa using he2)]
      exact ih
    · rw [if_neg he]
      by_cases he2 : e.1 = k'
      · rw [List.find?_cons_of_pos _ (by simpa using he2),
          List.find?_cons_of_pos _ (by simpa using he2)]
      · rw [List.find?_cons_of_neg _ (by simpa using he2),
          List.find?_cons_of_neg _ (by simpa using he2)]
        exact ih

theorem mapLookup_mapInsert_self {α β : Type} [DecidableEq α] (k : α) (v : β)
    (m : List (α × β)) : mapLookup (mapInsert k v m) k = some v := by
  unfold mapLookup mapInsert
  by_cases h : m.any (fun e => decide (e.1 = k)) = true
  · rw [if_pos h, find?_replaceVal_self, if_pos h]
    rfl
  · rw [if_neg h, List.find?_append]
    have h2 : List.find? (fun e => decide (e.1 = k)) m = none := by
      rw [List.find?_eq_none]
      intro x hx
      exact List.any_eq_false.mp (Bool.eq_false_iff.mpr h) x hx
    rw [h2]
    simp

theorem mapLookup_mapInsert_ne {α β : Type} [DecidableEq α] (k k' : α) (v : β)
    (hk : ¬ k = k') (m : List (α × β)) :
    mapLookup (mapInsert k v m) k' = mapLookup m k' := by
  unfold mapLookup mapInsert
  by_cases h : m.any (fun e => decide (e.1 = k)) = true
  · rw [if_pos h, find?_replaceVal_ne k k' v hk]
  · rw [if_neg h, List.find?_append]
    have h2 : List.find? (fun e => decide (e.1 = k')) [(k, v)] = none := by
      simp [hk]
    rw [h2]
    simp

theorem nodupKeys_mapInsert {α β : Type} [DecidableEq α] (k : α) (v : β)
    (m : List (α × β)) (h : nodupKeys m) : nodupKeys (mapInsert k v m) := by
  unfold nodupKeys mapInsert
  by_cases hm : m.any (fun e => decide (e.1 = k)) = true
  · rw [if_pos hm]
    have hmap : (m.map (fun e => if e.1 = k then (k, v) else e)).map Prod.fst =
        m.map Prod.fst := by
      rw [List.map_map]
      apply List.map_congr_left
      intro e _
      by_cases h2 : e.1 = k
      · simp [h2]
      · simp [h2]
    rw [hmap]
    exact h
  · rw [if_neg hm, List.map_append, List.nodup_append]
    refine ⟨h, List.nodup_singleton k, ?_⟩
    intro a ha hb
    simp only [List.map_cons, List.map_nil, List.mem_singleton] at hb
    subst hb
    apply hm
    rw [List.any_eq_true]
    obtain ⟨e, he, he2⟩ := List.mem_map.mp ha
    exact ⟨e, he, by simp [he2]⟩

theorem insFold_cons {α β : Type} [DecidableEq α] (m : List (α × β))
    (e : α × β) (es : List (α × β)) :
    insFold m (e :: es) = insFold (mapInsert e.1 e.2 m) es := rfl

theorem mapLookup_insFold {α β : Type} [DecidableEq α] (k : α) :
    ∀ (es m : List (α × β)),
      mapLookup (insFold m es) k =
        match es.reverse.find? (fun e => decide (e.1 = k)) with
        | some e => some e.2
        | none => mapLookup m k := by
  intro es
  induction es with
  | nil => intro m; simp [insFold]
  | cons e t ih =>
    intro m
    rw [insFold_cons, ih, List.reverse_cons, List.find?_append]
    cases hf : t.reverse.find? (fun x => decide (x.1 = k)) with
    | some x => simp [Option.or]
    | none =>
      simp only [Option.or]
      by_cases he : e.1 = k
      · have hfe : List.find? (fun x => decide (x.1 = k)) [e] = some e := by
          simp [he]
        rw [hfe]
        simp only
        rw [← he]
        exact mapLookup_mapInsert_self e.1 e.2 m
      · have hfe : List.find? (fun x => decide (x.1 = k)) [e] = none := by
          simp [he]
        rw [hfe]
        simp only
        exact mapLookup_mapInsert_ne e.1 k e.2 he m

theorem nodupKeys_insFold {α β : Type} [DecidableEq α] :
    ∀ (es m : List (α × β)), nodupKeys m → nodupKeys (insFold m es) := by
  intro es
  induction es with
  | nil => intro m h; exact h
  | cons e t ih => intro m h; exact ih _ (nodupKeys_mapInsert e.1 e.2 m h)

theorem load_aux_insFold :
    ∀ (lines : List (List Char)) (hdrs : Option (List (List Char)))
      (m : WMap) (count : Nat) (flag : Bool) (m2 : WMap) (flag2 : Bool),
      load_aux hdrs m count flag lines = .ok (m2, flag2) →
      m2 = insFold m (entriesOf hdrs lines) := by
  intro lines
  induction lines with
  | nil =>
    intro hdrs m count flag m2 flag2 h
    simp [load_aux] at h
    simp [entriesOf, insFold, h.1]
  | cons line rest ih =>
    intro hdrs m count flag m2 flag2 h
    rw [load_aux.eq_def] at h
    simp only at h
    rw [entriesOf.eq_def]
    simp only
    by_cases hc : isCommentLine line = true
    · rw [if_pos hc] at h
      rw [if_pos hc]
      exact ih hdrs m count flag m2 flag2 h
    · rw [if_neg hc] at h
      rw [if_neg hc]
      cases hdrs with
      | none =>
        simp only at h ⊢
        exact ih _ m count flag m2 flag2 h
      | some hs =>
        simp only at h ⊢
        cases hp : parseRow hs line with
        | error e =>
          rw [hp] at h
          simp at h
        | ok kvc =>
          obtain ⟨key, val, chr⟩ := kvc
          rw [hp] at h
          simp only at h ⊢
          rw [insFold_cons]
          exact ih (some hs) (mapInsert key val m) (count + 1) _ m2 flag2 h

/-- C8: whenever `load_scoring_file` succeeds, the resulting map holds at
most one entry per normalized `(chromosome, position)` key, and looking
up any key returns the `(effect_allele, weight)` value of the last data
row in file order whose normalized key equals it (later duplicate rows
silently overwrite earlier ones). -/
theorem loader_last_wins (lines : List (List Char)) (m : WMap) (flag : Bool)
    (h : load_scoring_file lines = .ok (m, flag)) :
    nodupKeys m ∧
    ∀ k : List Char × Nat,
      mapLookup m k =
        ((scoringEntries lines).reverse.find?
          (fun e => decide (e.1 = k))).map (fun e => e.2) := by
  have hm : m = insFold [] (entriesOf none lines) :=
    load_aux_insFold lines none [] 0 false m flag h
  constructor
  · rw [hm]
    exact nodupKeys_insFold _ _ (by simp [nodupKeys])
  · intro k
    rw [hm, mapLookup_insFold]
    cases hf : (entriesOf none lines).reverse.find? (fun e => decide (e.1 = k)) with
    | some x => simp [scoringEntries, hf]
    | none => simp [scoringEntries, hf, mapLookup]

/-- Witness for the loader theorem at a concrete scoring file with two
rows whose normalized keys collide (`chr1` and `1` at position 1000): the
stored value is the second row's `("G", 0.25)`. -/
theorem loader_last_wins_witness :
    nodupKeys [(("1".data, 1000), ("G".data, mkRat 1 4))] ∧
    mapLookup [(("1".data, 1000), ("G".data, mkRat 1 4))] ("1".data, 1000) =
      ((scoringEntries exampleScoringLines).reverse.find?
        (fun e => decide (e.1 = ("1".data, 1000)))).map (fun e => e.2) :=
  ⟨(loader_last_wins exampleScoringLines _ true (by rfl)).1,
    (loader_last_wins exampleScoringLines _ true (by rfl)).2 ("1".data, 1000)⟩
